import Mathlib

/-!
Verification of the LRU cache in `src/mittel/M3_lru_cache/lru_cache.py`.

The Python class `LRUCache` keeps its entries in a `collections.OrderedDict`,
oldest (least recently used) entry first.  We model the ordered dictionary as
an association list `List (K × Option V)` whose head is the oldest entry.
A Python value stored in the cache is modelled as `Option V`: `Option.none`
is Python's `None` (which `get` also uses as its miss sentinel), `some v`
is any other value.

Python raises exceptions in two guarded spots (`OrderedDict.move_to_end` on
an absent key, `OrderedDict.popitem` on an empty dict) and in the
constructor; those are embedded as `Except String` versions next to the
total functions.
-/

set_option linter.unusedSectionVars false

namespace LRU

variable {K V α : Type} [DecidableEq K]

/-- Lookup `od[key]` in an insertion-ordered dict modelled as an association
list (head = oldest): the value of the unique entry with key `k`, if any. -/
def odLookup (l : List (K × α)) (k : K) : Option α :=
  (l.find? fun p => decide (p.1 = k)).map Prod.snd

/-- Python's `key in od` membership test. -/
def odContains (l : List (K × α)) (k : K) : Bool :=
  (odLookup l k).isSome

/-- Removal of the entry with key `k` (internal helper for `move_to_end`). -/
def odRemove (l : List (K × α)) (k : K) : List (K × α) :=
  l.filter fun p => !decide (p.1 = k)

/-- Operation `od.move_to_end(k)`: detach the entry with key `k` and re-attach it at
the newest end, keeping its value.  Total version; the Python call raises
`KeyError` on an absent key, see `odMoveToEndE`. -/
def odMoveToEnd (l : List (K × α)) (k : K) : List (K × α) :=
  match odLookup l k with
  | Option.none => l
  | Option.some v => odRemove l k ++ [(k, v)]

/-- Operation `od.move_to_end(k)` with Python's `KeyError` on an absent key. -/
def odMoveToEndE (l : List (K × α)) (k : K) : Except String (List (K × α)) :=
  match odLookup l k with
  | Option.none => Except.error "KeyError"
  | Option.some v => Except.ok (odRemove l k ++ [(k, v)])

/-- Operation `od.popitem(last=False)`: drop the oldest entry; Python raises
`KeyError` on an empty dict. -/
def odPopFirstE (l : List (K × α)) : Except String (List (K × α)) :=
  match l with
  | [] => Except.error "KeyError: dictionary is empty"
  | _ :: t => Except.ok t

/-- Assignment `od[k] = v`: overwrite the value of an existing entry in place, or
append a fresh entry at the newest end. -/
def odSet : List (K × α) → K → α → List (K × α)
  | [], k, v => [(k, v)]
  | p :: t, k, v => if p.1 = k then (k, v) :: t else p :: odSet t k v

/-- The cache object: the `capacity` attribute set by `__init__` and the
`cache` ordered dict, oldest entry first. -/
structure LRUCache (K V : Type) where
  capacity : Int
  cache : List (K × Option V)
deriving DecidableEq

/-- Constructor `LRUCache.__init__`: raises `ValueError` when `capacity < 1`, otherwise
produces the empty cache. -/
def LRUCache.init (K V : Type) (capacity : Int) : Except String (LRUCache K V) :=
  if capacity < 1 then Except.error "Kapazität muss mindestens 1 sein"
  else Except.ok ⟨capacity, []⟩

/-- The state right after a successful construction. -/
def emptyCache (K V : Type) (capacity : Int) : LRUCache K V :=
  ⟨capacity, []⟩

/-- Method `LRUCache.get`: `None` on a miss; on a hit, move the entry to the newest
end and return the stored value (which is itself `none` when the stored
Python value is `None`). -/
def LRUCache.get (c : LRUCache K V) (k : K) : Option V × LRUCache K V :=
  match odLookup c.cache k with
  | Option.none => (Option.none, c)
  | Option.some v => (v, ⟨c.capacity, odMoveToEnd c.cache k⟩)

/-- Method `LRUCache.put`: on an existing key, `move_to_end` then overwrite; on a
new key, first `popitem(last=False)` when `len(cache) >= capacity`, then
append the new entry at the newest end. -/
def LRUCache.put (c : LRUCache K V) (k : K) (v : Option V) : LRUCache K V :=
  if odContains c.cache k then
    ⟨c.capacity, odSet (odMoveToEnd c.cache k) k v⟩
  else if (c.cache.length : Int) ≥ c.capacity then
    ⟨c.capacity, c.cache.tail ++ [(k, v)]⟩
  else
    ⟨c.capacity, c.cache ++ [(k, v)]⟩

/-- Method `LRUCache.get` with the fallible dict primitives left visible. -/
def LRUCache.getE (c : LRUCache K V) (k : K) :
    Except String (Option V × LRUCache K V) :=
  if odContains c.cache k = false then Except.ok (Option.none, c)
  else
    match odMoveToEndE c.cache k with
    | Except.error e => Except.error e
    | Except.ok l =>
        match odLookup l k with
        | Option.none => Except.error "KeyError"
        | Option.some v => Except.ok (v, ⟨c.capacity, l⟩)

/-- Method `LRUCache.put` with the fallible dict primitives left visible. -/
def LRUCache.putE (c : LRUCache K V) (k : K) (v : Option V) :
    Except String (LRUCache K V) :=
  if odContains c.cache k then
    match odMoveToEndE c.cache k with
    | Except.error e => Except.error e
    | Except.ok l => Except.ok ⟨c.capacity, odSet l k v⟩
  else if (c.cache.length : Int) ≥ c.capacity then
    match odPopFirstE c.cache with
    | Except.error e => Except.error e
    | Except.ok l => Except.ok ⟨c.capacity, l ++ [(k, v)]⟩
  else
    Except.ok ⟨c.capacity, c.cache ++ [(k, v)]⟩

/-- Method `LRUCache.size`: `len(self.cache)`. -/
def LRUCache.size (c : LRUCache K V) : Nat :=
  c.cache.length

/-- Method `LRUCache.clear`: `self.cache.clear()`. -/
def LRUCache.clear (c : LRUCache K V) : LRUCache K V :=
  ⟨c.capacity, []⟩

/-- Method `LRUCache.__contains__`: `key in self.cache`, a pure membership test. -/
def LRUCache.containsKey (c : LRUCache K V) (k : K) : Bool :=
  odContains c.cache k

/-- One client call on the cache. -/
inductive Op (K V : Type) where
  | put (k : K) (v : Option V)
  | get (k : K)
  | clear
  | contains (k : K)

/-- The state transformation of one call (`get` and `contains` also return
a result, discarded here; `__contains__` does not touch the state). -/
def step (c : LRUCache K V) : Op K V → LRUCache K V
  | Op.put k v => c.put k v
  | Op.get k => (c.get k).2
  | Op.clear => c.clear
  | Op.contains _ => c

/-- Run a call sequence from a freshly constructed cache of the given
capacity. -/
def run (K V : Type) [DecidableEq K] (cap : Int) (ops : List (Op K V)) :
    LRUCache K V :=
  ops.foldl step (emptyCache K V cap)

/-- One call with the fallible dict primitives left visible (the result of
`get` and `contains` is again discarded; `clear` and `__contains__` touch
no fallible primitive). -/
def stepE (c : LRUCache K V) : Op K V → Except String (LRUCache K V)
  | Op.put k v => c.putE k v
  | Op.get k =>
      match c.getE k with
      | Except.error e => Except.error e
      | Except.ok r => Except.ok r.2
  | Op.clear => Except.ok c.clear
  | Op.contains _ => Except.ok c

/-!
### Specification-level recency instrumentation

The spec defines "least recently used" by history: among the present keys,
the one that least recently appeared as the key of a `get` hit or of a
`put`.  `SState` runs the same call sequence while tagging every entry with
`last`, the index of the step at which its key last appeared as a `put` key
or as a `get` hit; the clock ticks on every `put` and `get`.  An eviction
is "correct" when the evicted entry's `last` is strictly smaller than
every other present entry's `last`, which the final eviction theorem
proves.
-/

/-- An entry together with the step index of its most recent use. -/
structure SEntry (K V : Type) where
  key : K
  val : Option V
  last : Nat

/-- Instrumented state: stamped entries (oldest first) plus the step clock. -/
structure SState (K V : Type) where
  entries : List (SEntry K V)
  clock : Nat

/-- Instrumented `put`: a use of `k`, stamped with the current clock. -/
def sput (cap : Int) (s : SState K V) (k : K) (v : Option V) : SState K V :=
  if s.entries.any fun e => decide (e.key = k) then
    ⟨(s.entries.filter fun e => !decide (e.key = k)) ++ [⟨k, v, s.clock⟩],
      s.clock + 1⟩
  else if (s.entries.length : Int) ≥ cap then
    ⟨s.entries.tail ++ [⟨k, v, s.clock⟩], s.clock + 1⟩
  else
    ⟨s.entries ++ [⟨k, v, s.clock⟩], s.clock + 1⟩

/-- Instrumented `get`: a hit re-stamps the entry, a miss stamps nothing. -/
def sget (s : SState K V) (k : K) : SState K V :=
  match s.entries.find? fun e => decide (e.key = k) with
  | Option.none => ⟨s.entries, s.clock + 1⟩
  | Option.some e =>
      ⟨(s.entries.filter fun e => !decide (e.key = k)) ++ [⟨k, e.val, s.clock⟩],
        s.clock + 1⟩

/-- Instrumented state transformation of one call. -/
def sstep (cap : Int) (s : SState K V) : Op K V → SState K V
  | Op.put k v => sput cap s k v
  | Op.get k => sget s k
  | Op.clear => ⟨[], s.clock⟩
  | Op.contains _ => s

/-- Instrumented run of a call sequence from the empty cache. -/
def srun (K V : Type) [DecidableEq K] (cap : Int) (ops : List (Op K V)) :
    SState K V :=
  ops.foldl (sstep cap) ⟨[], 0⟩

/-- Forget the stamps of an instrumented entry list. -/
def eraseStamps (l : List (SEntry K V)) : List (K × Option V) :=
  l.map fun e => (e.key, e.val)

/-- Coupling invariant between a cache state and its instrumentation:
same entries in the same order, stamps strictly increasing along the list
(so the head is the least recently used entry), stamps in the past,
distinct keys, and the size bound. -/
def Inv (cap : Int) (c : LRUCache K V) (s : SState K V) : Prop :=
  c.capacity = cap ∧
  c.cache = eraseStamps s.entries ∧
  s.entries.Pairwise (fun a b => a.last < b.last) ∧
  (∀ e ∈ s.entries, e.last < s.clock) ∧
  (c.cache.map Prod.fst).Nodup ∧
  (c.cache.length : Int) ≤ cap

/-! ### Lemmas about the ordered-dict primitives -/

theorem odLookup_nil (k : K) : odLookup ([] : List (K × α)) k = Option.none := rfl

theorem odLookup_cons (k' : K) (v : α) (t : List (K × α)) (k : K) :
    odLookup ((k', v) :: t) k =
      if k' = k then Option.some v else odLookup t k := by
  by_cases h : k' = k <;> simp [odLookup, List.find?, h]

theorem odLookup_append (l₁ l₂ : List (K × α)) (k : K) :
    odLookup (l₁ ++ l₂) k =
      match odLookup l₁ k with
      | Option.none => odLookup l₂ k
      | Option.some v => Option.some v := by
  induction l₁ with
  | nil => simp [odLookup_nil]
  | cons p t ih =>
      obtain ⟨k', v⟩ := p
      by_cases h : k' = k <;> simp [odLookup_cons, h, ih]

theorem odLookup_odRemove_self (l : List (K × α)) (k : K) :
    odLookup (odRemove l k) k = Option.none := by
  induction l with
  | nil => rfl
  | cons p t ih =>
      obtain ⟨k', v⟩ := p
      by_cases h : k' = k <;> simp [odRemove, List.filter, h, odLookup_cons] at ih ⊢ <;>
        simpa [odRemove] using ih

theorem odLookup_odRemove_ne (l : List (K × α)) (k k' : K) (h : k' ≠ k) :
    odLookup (odRemove l k) k' = odLookup l k' := by
  induction l with
  | nil => rfl
  | cons p t ih =>
      obtain ⟨k₀, v⟩ := p
      by_cases h₀ : k₀ = k
      · have h₁ : k₀ ≠ k' := fun he => h (he ▸ h₀)
        have hrem : odRemove ((k₀, v) :: t) k = odRemove t k := by
          simp [odRemove, List.filter, h₀]
        rw [hrem, ih, odLookup_cons, if_neg h₁]
      · have hrem : odRemove ((k₀, v) :: t) k = (k₀, v) :: odRemove t k := by
          simp [odRemove, List.filter, h₀]
        rw [hrem, odLookup_cons, odLookup_cons, ih]

theorem odContains_eq_isSome (l : List (K × α)) (k : K) :
    odContains l k = (odLookup l k).isSome := rfl

theorem odContains_of_lookup (l : List (K × α)) (k : K) (v : α)
    (h : odLookup l k = Option.some v) : odContains l k = true := by
  simp [odContains, h]

theorem lookup_of_odContains (l : List (K × α)) (k : K)
    (h : odContains l k = true) : ∃ v, odLookup l k = Option.some v := by
  cases hv : odLookup l k with
  | none => simp [odContains, hv] at h
  | some v => exact ⟨v, rfl⟩

theorem keys_odRemove (l : List (K × α)) (k : K) :
    (odRemove l k).map Prod.fst =
      (l.map Prod.fst).filter fun k' => !decide (k' = k) := by
  induction l with
  | nil => rfl
  | cons p t ih =>
      obtain ⟨k₀, v⟩ := p
      by_cases h : k₀ = k <;> simp [odRemove, List.filter, h] at ih ⊢ <;>
        simpa [odRemove] using ih

theorem length_odRemove_of_nodup (l : List (K × α)) (k : K)
    (hnd : (l.map Prod.fst).Nodup) (hc : odContains l k = true) :
    (odRemove l k).length + 1 = l.length := by
  induction l with
  | nil => simp [odContains, odLookup] at hc
  | cons p t ih =>
      obtain ⟨k₀, v⟩ := p
      simp only [List.map_cons, List.nodup_cons] at hnd
      by_cases h : k₀ = k
      · subst h
        have : odRemove ((k₀, v) :: t) k₀ = odRemove t k₀ := by
          simp [odRemove, List.filter]
        rw [this]
        have : odRemove t k₀ = t := by
          apply List.filter_eq_self.2
          intro p hp
          have : p.1 ≠ k₀ := fun he => hnd.1 (he ▸ List.mem_map_of_mem Prod.fst hp)
          simpa using this
        simp [this]
      · have hc' : odContains t k = true := by
          simpa [odContains, odLookup_cons, h] using hc
        have : odRemove ((k₀, v) :: t) k = (k₀, v) :: odRemove t k := by
          simp [odRemove, List.filter, h]
        rw [this]
        simpa using ih hnd.2 hc'

theorem odSet_append_last (l : List (K × α)) (k : K) (v₀ v : α)
    (h : odLookup l k = Option.none) :
    odSet (l ++ [(k, v₀)]) k v = l ++ [(k, v)] := by
  induction l with
  | nil => simp [odSet]
  | cons p t ih =>
      obtain ⟨k₀, w⟩ := p
      by_cases h₀ : k₀ = k
      · simp [odLookup_cons, h₀] at h
      · simp [odLookup_cons, h₀] at h
        simp [odSet, h₀, ih h]

/-! ### Transfer between the instrumented state and the cache state -/

theorem eraseStamps_nil : eraseStamps ([] : List (SEntry K V)) = [] := rfl

theorem length_eraseStamps (l : List (SEntry K V)) :
    (eraseStamps l).length = l.length := by
  simp [eraseStamps]

theorem eraseStamps_append (l₁ l₂ : List (SEntry K V)) :
    eraseStamps (l₁ ++ l₂) = eraseStamps l₁ ++ eraseStamps l₂ := by
  simp [eraseStamps]

theorem eraseStamps_tail (l : List (SEntry K V)) :
    eraseStamps l.tail = (eraseStamps l).tail := by
  cases l <;> rfl

theorem eraseStamps_filter (l : List (SEntry K V)) (k : K) :
    eraseStamps (l.filter fun e => !decide (e.key = k)) =
      odRemove (eraseStamps l) k := by
  induction l with
  | nil => rfl
  | cons e t ih =>
      by_cases h : e.key = k <;>
        simp [eraseStamps, odRemove, List.filter, h] at ih ⊢ <;>
        simpa [eraseStamps, odRemove] using ih

theorem odLookup_eraseStamps (l : List (SEntry K V)) (k : K) :
    odLookup (eraseStamps l) k =
      (l.find? fun e => decide (e.key = k)).map SEntry.val := by
  induction l with
  | nil => rfl
  | cons e t ih =>
      by_cases h : e.key = k
      · simp [eraseStamps, odLookup_cons, List.find?, h]
      · simpa [eraseStamps, odLookup_cons, List.find?, h] using ih

theorem odContains_eraseStamps (l : List (SEntry K V)) (k : K) :
    odContains (eraseStamps l) k = l.any fun e => decide (e.key = k) := by
  rw [odContains, odLookup_eraseStamps]
  cases hf : l.find? fun e => decide (e.key = k) with
  | none =>
      have hfalse : (l.any fun e => decide (e.key = k)) = false := by
        simp only [List.any_eq_false]
        intro e he
        simpa using List.find?_eq_none.1 hf e he
      simp [hfalse]
  | some e₀ =>
      have hp := List.find?_some hf
      have htrue : (l.any fun e => decide (e.key = k)) = true :=
        List.any_eq_true.2 ⟨e₀, List.mem_of_find?_eq_some hf, hp⟩
      simp [htrue]

theorem keys_eraseStamps (l : List (SEntry K V)) :
    (eraseStamps l).map Prod.fst = l.map SEntry.key := by
  simp [eraseStamps]

theorem not_mem_keys_of_odContains_false (l : List (K × α)) (k : K)
    (h : odContains l k = false) : k ∉ l.map Prod.fst := by
  induction l with
  | nil => simp
  | cons p t ih =>
      obtain ⟨k₀, v⟩ := p
      by_cases h₀ : k₀ = k
      · simp [odContains, odLookup_cons, h₀] at h
      · have h' : odContains t k = false := by
          simpa [odContains, odLookup_cons, h₀] using h
        intro hmem
        rw [List.map_cons, List.mem_cons] at hmem
        rcases hmem with he | he
        · exact h₀ he.symm
        · exact ih h' he

/-- Shape of `get` on a miss: the sentinel `None` and an unchanged state. -/
theorem get_miss (c : LRUCache K V) (k : K)
    (h : odLookup c.cache k = Option.none) :
    c.get k = (Option.none, c) := by
  simp [LRUCache.get, h]

/-- Shape of `get` on a hit: the stored value, and the entry re-attached at
the newest end. -/
theorem get_hit (c : LRUCache K V) (k : K) (v₀ : Option V)
    (h : odLookup c.cache k = Option.some v₀) :
    c.get k = (v₀, ⟨c.capacity, odRemove c.cache k ++ [(k, v₀)]⟩) := by
  simp [LRUCache.get, odMoveToEnd, h]

/-- Shape of `put` on a present key: same detach/re-attach as a `get` hit,
with the value overwritten. -/
theorem put_present_cache (c : LRUCache K V) (k : K) (v : Option V)
    (h : odContains c.cache k = true) :
    c.put k v = ⟨c.capacity, odRemove c.cache k ++ [(k, v)]⟩ := by
  obtain ⟨v₀, hv₀⟩ := lookup_of_odContains _ _ h
  have hset := odSet_append_last (odRemove c.cache k) k v₀ v
    (odLookup_odRemove_self c.cache k)
  simp [LRUCache.put, h, odMoveToEnd, hv₀, hset]

theorem pairwise_lt_append_single (l : List (SEntry K V)) (e : SEntry K V)
    (hl : l.Pairwise fun a b => a.last < b.last)
    (he : ∀ a ∈ l, a.last < e.last) :
    (l ++ [e]).Pairwise fun a b => a.last < b.last := by
  refine List.pairwise_append.2 ⟨hl, List.pairwise_singleton _ _, ?_⟩
  intro a ha b hb
  rw [List.mem_singleton] at hb
  exact hb ▸ he a ha

theorem nodup_append_single {l : List K} {k : K} (hl : l.Nodup)
    (hk : k ∉ l) : (l ++ [k]).Nodup := by
  refine List.nodup_append.2 ⟨hl, List.nodup_singleton _, ?_⟩
  intro a ha hb
  rw [List.mem_singleton] at hb
  exact hk (hb ▸ ha)

theorem mem_keys_of_odContains (l : List (K × α)) (k : K)
    (h : odContains l k = true) : k ∈ l.map Prod.fst := by
  obtain ⟨v, hv⟩ := lookup_of_odContains l k h
  have hf : l.find? (fun p => decide (p.1 = k)) = some (k, v) := by
    cases hf' : l.find? fun p => decide (p.1 = k) with
    | none => simp [odLookup, hf'] at hv
    | some p =>
        have hk := List.find?_some hf'
        have hv' : p.2 = v := by simpa [odLookup, hf'] using hv
        have : p = (k, v) := by
          obtain ⟨p1, p2⟩ := p
          simp at hk hv'
          simp [hk, hv']
        rw [this]
  exact List.mem_map_of_mem Prod.fst (List.mem_of_find?_eq_some hf)

theorem odContains_false_of_not_mem_keys (l : List (K × α)) (k : K)
    (h : k ∉ l.map Prod.fst) : odContains l k = false := by
  cases hc : odContains l k with
  | false => rfl
  | true => exact absurd (mem_keys_of_odContains l k hc) h

theorem odLookup_eq_none_of_not_mem_keys (l : List (K × α)) (k : K)
    (h : k ∉ l.map Prod.fst) : odLookup l k = Option.none := by
  cases hv : odLookup l k with
  | none => rfl
  | some v => exact absurd (mem_keys_of_odContains l k (odContains_of_lookup l k v hv)) h

theorem odLookup_remove_append_self (l : List (K × α)) (k : K) (v : α) :
    odLookup (odRemove l k ++ [(k, v)]) k = Option.some v := by
  rw [odLookup_append, odLookup_odRemove_self]
  simp [odLookup_cons]

theorem odLookup_remove_append_ne (l : List (K × α)) (k k' : K) (v : α)
    (h : k' ≠ k) :
    odLookup (odRemove l k ++ [(k, v)]) k' = odLookup l k' := by
  rw [odLookup_append, odLookup_odRemove_ne l k k' h]
  cases hv : odLookup l k' with
  | none =>
      have hne : ¬ k = k' := fun he => h he.symm
      simp [odLookup_cons, odLookup_nil, hne]
  | some w => rfl

theorem odLookup_append_single_none (l : List (K × α)) (k k' : K) (v : α)
    (hl : odLookup l k' = Option.none) (h : k' ≠ k) :
    odLookup (l ++ [(k, v)]) k' = Option.none := by
  rw [odLookup_append, hl]
  have hne : ¬ k = k' := fun he => h he.symm
  simp [odLookup_cons, odLookup_nil, hne]

theorem find?_key_of_mem (l : List (SEntry K V)) (e : SEntry K V)
    (hnd : (l.map SEntry.key).Nodup) (he : e ∈ l) :
    (l.find? fun x => decide (x.key = e.key)) = Option.some e := by
  induction l with
  | nil => cases he
  | cons h t ih =>
      rw [List.map_cons, List.nodup_cons] at hnd
      by_cases hk : h.key = e.key
      · have heq : e = h := by
          rcases List.mem_cons.1 he with he' | he'
          · exact he'
          · exfalso
            have : h.key ∈ t.map SEntry.key := by
              rw [hk]
              exact List.mem_map_of_mem SEntry.key he'
            exact hnd.1 this
        rw [heq]
        simp [List.find?, hk]
      · have he' : e ∈ t := by
          rcases List.mem_cons.1 he with h0 | h0
          · exact absurd (h0 ▸ rfl) hk
          · exact h0
        have := ih hnd.2 he'
        simpa [List.find?, hk] using this

/-- One call preserves the coupling invariant. -/
theorem inv_step (cap : Int) (hcap : 1 ≤ cap) (c : LRUCache K V)
    (s : SState K V) (hinv : Inv cap c s) (op : Op K V) :
    Inv cap (step c op) (sstep cap s op) := by
  obtain ⟨hcapa, hcache, hpw, hclock, hnd, hlen⟩ := hinv
  cases op with
  | contains k => exact ⟨hcapa, hcache, hpw, hclock, hnd, hlen⟩
  | clear =>
      have hstep : step c Op.clear = ⟨c.capacity, []⟩ := rfl
      have hsstep : sstep cap s Op.clear = ⟨[], s.clock⟩ := rfl
      rw [hstep, hsstep]
      refine ⟨hcapa, rfl, List.Pairwise.nil, ?_, ?_, ?_⟩
      · intro e he
        simp at he
      · simp
      · show (((0 : Nat) : Int)) ≤ cap
        omega
  | get k =>
      have halign : odLookup c.cache k =
          (s.entries.find? fun e => decide (e.key = k)).map SEntry.val := by
        rw [hcache, odLookup_eraseStamps]
      cases hf : s.entries.find? fun e => decide (e.key = k) with
      | none =>
          have hmiss : odLookup c.cache k = Option.none := by rw [halign, hf]; rfl
          have hstep : step c (Op.get k) = c := by
            simp [step, get_miss c k hmiss]
          have hsstep : sstep cap s (Op.get k) = ⟨s.entries, s.clock + 1⟩ := by
            simp [sstep, sget, hf]
          rw [hstep, hsstep]
          exact ⟨hcapa, hcache, hpw, fun e he => Nat.lt_succ_of_lt (hclock e he),
            hnd, hlen⟩
      | some e₀ =>
          have hhit : odLookup c.cache k = Option.some e₀.val := by rw [halign, hf]; rfl
          have hkey : e₀.key = k := by simpa using List.find?_some hf
          have hmem : e₀ ∈ s.entries := List.mem_of_find?_eq_some hf
          have hstep : step c (Op.get k) =
              ⟨c.capacity, odRemove c.cache k ++ [(k, e₀.val)]⟩ := by
            simp [step, get_hit c k e₀.val hhit]
          have hsstep : sstep cap s (Op.get k) =
              ⟨(s.entries.filter fun e => !decide (e.key = k)) ++
                [⟨k, e₀.val, s.clock⟩], s.clock + 1⟩ := by
            simp [sstep, sget, hf]
          rw [hstep, hsstep]
          have hcontains : odContains c.cache k = true :=
            odContains_of_lookup _ _ _ hhit
          refine ⟨hcapa, ?_, ?_, ?_, ?_, ?_⟩
          · show odRemove c.cache k ++ [(k, e₀.val)] = _
            rw [eraseStamps_append, eraseStamps_filter, hcache]
            rfl
          · refine pairwise_lt_append_single _ _
              (hpw.sublist (List.filter_sublist _)) ?_
            intro a ha
            exact hclock a (List.mem_of_mem_filter ha)
          · intro e he
            rcases List.mem_append.1 he with he | he
            · exact Nat.lt_succ_of_lt (hclock e (List.mem_of_mem_filter he))
            · rw [List.mem_singleton] at he
              simp [he]
          · show ((odRemove c.cache k ++ [(k, e₀.val)]).map Prod.fst).Nodup
            rw [List.map_append, keys_odRemove]
            refine nodup_append_single (hnd.filter _) ?_
            intro hkmem
            have := List.of_mem_filter hkmem
            simp at this
          · show ((odRemove c.cache k ++ [(k, e₀.val)]).length : Int) ≤ cap
            rw [List.length_append]
            have := length_odRemove_of_nodup c.cache k hnd hcontains
            simp only [List.length_singleton]
            omega
  | put k v =>
      have hcon : odContains c.cache k =
          (s.entries.any fun e => decide (e.key = k)) := by
        rw [hcache, odContains_eraseStamps]
      by_cases hc : odContains c.cache k = true
      · -- key present: overwrite and move to the newest end
        have hany : (s.entries.any fun e => decide (e.key = k)) = true := by
          rw [← hcon]; exact hc
        have hstep : step c (Op.put k v) =
            ⟨c.capacity, odRemove c.cache k ++ [(k, v)]⟩ := by
          simp [step, put_present_cache c k v hc]
        have hsstep : sstep cap s (Op.put k v) =
            ⟨(s.entries.filter fun e => !decide (e.key = k)) ++
              [⟨k, v, s.clock⟩], s.clock + 1⟩ := by
          simp [sstep, sput, hany]
        rw [hstep, hsstep]
        refine ⟨hcapa, ?_, ?_, ?_, ?_, ?_⟩
        · show odRemove c.cache k ++ [(k, v)] = _
          rw [eraseStamps_append, eraseStamps_filter, hcache]
          rfl
        · refine pairwise_lt_append_single _ _
            (hpw.sublist (List.filter_sublist _)) ?_
          intro a ha
          exact hclock a (List.mem_of_mem_filter ha)
        · intro e he
          rcases List.mem_append.1 he with he | he
          · exact Nat.lt_succ_of_lt (hclock e (List.mem_of_mem_filter he))
          · rw [List.mem_singleton] at he
            simp [he]
        · show ((odRemove c.cache k ++ [(k, v)]).map Prod.fst).Nodup
          rw [List.map_append, keys_odRemove]
          refine nodup_append_single (hnd.filter _) ?_
          intro hkmem
          have := List.of_mem_filter hkmem
          simp at this
        · show ((odRemove c.cache k ++ [(k, v)]).length : Int) ≤ cap
          rw [List.length_append]
          have := length_odRemove_of_nodup c.cache k hnd hc
          simp only [List.length_singleton]
          omega
      · -- key absent
        have hc' : odContains c.cache k = false := by
          simpa using hc
        have hany : (s.entries.any fun e => decide (e.key = k)) = false := by
          rw [← hcon]; exact hc'
        have hkn : k ∉ c.cache.map Prod.fst :=
          not_mem_keys_of_odContains_false c.cache k hc'
        have hlen' : s.entries.length = c.cache.length := by
          rw [hcache, length_eraseStamps]
        by_cases hfull : (c.cache.length : Int) ≥ c.capacity
        · -- at capacity: evict the head, then append
          have hfull' : ((s.entries.length : Int) ≥ cap) := by
            rw [hlen']; rw [hcapa] at hfull; exact hfull
          have hstep : step c (Op.put k v) =
              ⟨c.capacity, c.cache.tail ++ [(k, v)]⟩ := by
            simp [step, LRUCache.put, hc', hfull]
          have hsstep : sstep cap s (Op.put k v) =
              ⟨s.entries.tail ++ [⟨k, v, s.clock⟩], s.clock + 1⟩ := by
            simp [sstep, sput, hany, hfull']
          rw [hstep, hsstep]
          have hne : c.cache ≠ [] := by
            intro h0
            rw [h0] at hfull
            simp at hfull
            omega
          refine ⟨hcapa, ?_, ?_, ?_, ?_, ?_⟩
          · show c.cache.tail ++ [(k, v)] = _
            rw [eraseStamps_append, eraseStamps_tail, ← hcache]
            rfl
          · refine pairwise_lt_append_single _ _
              (hpw.sublist (List.tail_sublist _)) ?_
            intro a ha
            exact hclock a ((List.tail_sublist _).mem ha)
          · intro e he
            rcases List.mem_append.1 he with he | he
            · exact Nat.lt_succ_of_lt (hclock e ((List.tail_sublist _).mem he))
            · rw [List.mem_singleton] at he
              simp [he]
          · show ((c.cache.tail ++ [(k, v)]).map Prod.fst).Nodup
            rw [List.map_append]
            have hsub : List.Sublist (c.cache.tail.map Prod.fst)
                (c.cache.map Prod.fst) :=
              (List.tail_sublist _).map _
            refine nodup_append_single (hnd.sublist hsub) ?_
            intro hkmem
            exact hkn (hsub.mem hkmem)
          · show ((c.cache.tail ++ [(k, v)]).length : Int) ≤ cap
            rw [List.length_append, List.length_tail]
            have h1 : 1 ≤ c.cache.length := List.length_pos.2 hne
            simp only [List.length_singleton]
            omega
        · -- below capacity: plain append
          have hfull' : ¬ ((s.entries.length : Int) ≥ cap) := by
            rw [hlen']; rw [hcapa] at hfull; exact hfull
          have hstep : step c (Op.put k v) =
              ⟨c.capacity, c.cache ++ [(k, v)]⟩ := by
            simp [step, LRUCache.put, hc', hfull]
          have hsstep : sstep cap s (Op.put k v) =
              ⟨s.entries ++ [⟨k, v, s.clock⟩], s.clock + 1⟩ := by
            simp [sstep, sput, hany, hfull']
          rw [hstep, hsstep]
          refine ⟨hcapa, ?_, ?_, ?_, ?_, ?_⟩
          · show c.cache ++ [(k, v)] = _
            rw [eraseStamps_append, hcache]
            rfl
          · exact pairwise_lt_append_single _ _ hpw fun a ha => hclock a ha
          · intro e he
            rcases List.mem_append.1 he with he | he
            · exact Nat.lt_succ_of_lt (hclock e he)
            · rw [List.mem_singleton] at he
              simp [he]
          · show ((c.cache ++ [(k, v)]).map Prod.fst).Nodup
            rw [List.map_append]
            exact nodup_append_single hnd hkn
          · show ((c.cache ++ [(k, v)]).length : Int) ≤ cap
            rw [List.length_append]
            simp only [List.length_singleton]
            rw [hcapa] at hfull
            omega

/-- The coupling invariant holds right after construction. -/
theorem inv_init (cap : Int) (hcap : 1 ≤ cap) :
    Inv cap (emptyCache K V cap) ⟨[], 0⟩ := by
  refine ⟨rfl, rfl, List.Pairwise.nil, by simp, by simp [emptyCache], ?_⟩
  simp [emptyCache]
  omega

/-- The coupling invariant holds after any call sequence. -/
theorem inv_run (cap : Int) (hcap : 1 ≤ cap) (ops : List (Op K V)) :
    Inv cap (run K V cap ops) (srun K V cap ops) := by
  suffices h : ∀ (l : List (Op K V)) (c : LRUCache K V) (s : SState K V),
      Inv cap c s → Inv cap (l.foldl step c) (l.foldl (sstep cap) s) by
    exact h ops _ _ (inv_init cap hcap)
  intro l
  induction l with
  | nil => intro c s h; exact h
  | cons op t ih =>
      intro c s h
      exact ih _ _ (inv_step cap hcap c s h op)

theorem lookup_none_of_odContains_false (l : List (K × α)) (k : K)
    (h : odContains l k = false) : odLookup l k = Option.none := by
  cases hv : odLookup l k with
  | none => rfl
  | some v => simp [odContains, hv] at h

theorem odLookup_tail_none (l : List (K × α)) (k : K)
    (h : odLookup l k = Option.none) : odLookup l.tail k = Option.none := by
  cases l with
  | nil => rfl
  | cons p t =>
      obtain ⟨k₀, v⟩ := p
      rw [odLookup_cons] at h
      by_cases h₀ : k₀ = k
      · simp [h₀] at h
      · simpa [h₀] using h

/-- After `put k v`, the entry for `k` holds exactly `v`. -/
theorem put_lookup_self (c : LRUCache K V) (k : K) (v : Option V) :
    odLookup (c.put k v).cache k = Option.some v := by
  by_cases hc : odContains c.cache k = true
  · rw [put_present_cache c k v hc]
    exact odLookup_remove_append_self c.cache k v
  · have hc' : odContains c.cache k = false := by simpa using hc
    have hl := lookup_none_of_odContains_false c.cache k hc'
    by_cases hfull : (c.cache.length : Int) ≥ c.capacity
    · have hput : c.put k v = ⟨c.capacity, c.cache.tail ++ [(k, v)]⟩ := by
        simp [LRUCache.put, hc', hfull]
      rw [hput]
      show odLookup (c.cache.tail ++ [(k, v)]) k = Option.some v
      rw [odLookup_append, odLookup_tail_none c.cache k hl]
      simp [odLookup_cons]
    · have hput : c.put k v = ⟨c.capacity, c.cache ++ [(k, v)]⟩ := by
        simp [LRUCache.put, hc', hfull]
      rw [hput]
      show odLookup (c.cache ++ [(k, v)]) k = Option.some v
      rw [odLookup_append, hl]
      simp [odLookup_cons]

theorem run_contains_id (ks : List K) (c : LRUCache K V) :
    (ks.map (Op.contains (K := K) (V := V))).foldl step c = c := by
  induction ks generalizing c with
  | nil => rfl
  | cons k t ih => exact ih c

theorem put_capacity (c : LRUCache K V) (k : K) (v : Option V) :
    (c.put k v).capacity = c.capacity := by
  unfold LRUCache.put
  split_ifs <;> rfl

theorem get_capacity (c : LRUCache K V) (k : K) :
    ((c.get k).2).capacity = c.capacity := by
  unfold LRUCache.get
  cases odLookup c.cache k <;> rfl

theorem step_capacity (c : LRUCache K V) (op : Op K V) :
    (step c op).capacity = c.capacity := by
  cases op with
  | put k v => exact put_capacity c k v
  | get k => exact get_capacity c k
  | clear => rfl
  | contains k => rfl

theorem run_capacity (cap : Int) (ops : List (Op K V)) :
    (run K V cap ops).capacity = cap := by
  suffices h : ∀ (l : List (Op K V)) (c : LRUCache K V),
      (l.foldl step c).capacity = c.capacity by
    exact h ops (emptyCache K V cap)
  intro l
  induction l with
  | nil => intro c; rfl
  | cons op t ih =>
      intro c
      rw [List.foldl_cons, ih, step_capacity]

/-!
### The claims
-/

/-- Claim C3: immediately after `put(k, v)` the key is present and `get(k)`
returns exactly the value just stored, including when that value is `None`
(the stored value comes back unchanged; presence is what the code's hit
branch tests). -/
theorem lru_put_then_get_hits (c : LRUCache K V) (k : K) (v : Option V) :
    (c.put k v).containsKey k = true ∧ ((c.put k v).get k).1 = v := by
  have h := put_lookup_self c k v
  exact ⟨odContains_of_lookup _ _ _ h, by simp [LRUCache.get, h]⟩

/-- Claim C2, counterexample: the code does NOT report a stored `None` as
found — with capacity 1 and `put("k", None)`, the key is present, yet
`get("k")` returns the very same sentinel `None` that `get` returns for a
key that was never inserted, so a hit on a stored `None` and a miss are
indistinguishable from the return value. -/
theorem lru_stored_none_conflated_counterexample :
    ((emptyCache String Nat 1).put "k" Option.none).containsKey "k" = true ∧
    (((emptyCache String Nat 1).put "k" Option.none).get "k").1 =
      ((emptyCache String Nat 1).get "missing").1 := by
  exact ⟨by decide, by decide⟩

/-- Claim C2, amended: `get` on a missing key returns the fixed sentinel
`None` (and leaves the cache unchanged), which distinguishes a miss from
every stored value except `None` itself; for a key whose stored value is
`None` the key is present (per `contains`) but `get` returns the same
`None` as a miss, so the two are conflated. -/
theorem lru_get_miss_returns_none (c : LRUCache K V) (k : K) :
    (c.containsKey k = false → c.get k = (Option.none, c)) ∧
    (odLookup c.cache k = Option.some Option.none →
      c.containsKey k = true ∧ (c.get k).1 = Option.none) := by
  constructor
  · intro h
    exact get_miss c k (lookup_none_of_odContains_false _ _ h)
  · intro h
    exact ⟨odContains_of_lookup _ _ _ h, by simp [LRUCache.get, h]⟩

/-- Witness for `lru_get_miss_returns_none` at concrete inputs: a cache
holding `("k", None)` and the missing key `"nope"`. -/
theorem lru_get_miss_returns_none_witness :
    ((run String Nat 2 [Op.put "k" Option.none]).containsKey "k" = true ∧
      ((run String Nat 2 [Op.put "k" Option.none]).get "k").1 = Option.none) ∧
    (run String Nat 2 [Op.put "k" Option.none]).get "nope" =
      (Option.none, run String Nat 2 [Op.put "k" Option.none]) :=
  ⟨(lru_get_miss_returns_none (run String Nat 2 [Op.put "k" Option.none])
      "k").2 (by decide),
   (lru_get_miss_returns_none (run String Nat 2 [Op.put "k" Option.none])
      "nope").1 (by decide)⟩

/-- Claim C10: `get` on an absent key returns the miss sentinel and leaves
the whole cache state (entries, values, order, size, capacity) unchanged. -/
theorem lru_get_absent_is_pure (c : LRUCache K V) (k : K)
    (h : c.containsKey k = false) :
    c.get k = (Option.none, c) :=
  get_miss c k (lookup_none_of_odContains_false _ _ h)

/-- Witness for `lru_get_absent_is_pure`: a get of `"b"` on a cache holding
only `"a"`. -/
theorem lru_get_absent_is_pure_witness :
    (run String Nat 2 [Op.put "a" (some 1)]).containsKey "b" = false ∧
    (run String Nat 2 [Op.put "a" (some 1)]).get "b" =
      (Option.none, run String Nat 2 [Op.put "a" (some 1)]) :=
  ⟨by decide, lru_get_absent_is_pure (run String Nat 2 [Op.put "a" (some 1)])
    "b" (by decide)⟩

/-- Claim C8: `clear` removes every entry — afterwards `size() = 0`, every
key is absent (`get` misses, `contains` is false) and the capacity used by
later is-full checks is unchanged. -/
theorem lru_clear_empties (c : LRUCache K V) (k : K) :
    (c.clear).size = 0 ∧ (c.clear).containsKey k = false ∧
    ((c.clear).get k).1 = Option.none ∧ (c.clear).capacity = c.capacity := by
  exact ⟨rfl, rfl, rfl, rfl⟩

/-- Claim C9: `__contains__` reports presence (true exactly when an entry
with that key is stored) and is pure — a `contains` call is the identity on
the state, and splicing any number of `contains` calls into any call
sequence leaves the final state, hence every later eviction decision,
unchanged. -/
theorem lru_contains_is_pure (cap : Int) (ops₁ ops₂ : List (Op K V))
    (ks : List K) (c : LRUCache K V) (k : K) :
    step c (Op.contains k) = c ∧
    (c.containsKey k = true ↔ ∃ v, odLookup c.cache k = Option.some v) ∧
    run K V cap (ops₁ ++ ks.map Op.contains ++ ops₂) =
      run K V cap (ops₁ ++ ops₂) := by
  refine ⟨rfl, ⟨lookup_of_odContains _ _, ?_⟩, ?_⟩
  · rintro ⟨v, hv⟩
    exact odContains_of_lookup _ _ _ hv
  · unfold run
    rw [List.foldl_append, List.foldl_append, List.foldl_append,
      run_contains_id]

/-- Claim C5: the concrete capacity-3 scenario — after `put a b c`, a hit
on `a` and then `put d`, exactly `b` is evicted (the state is literally
`[c, a, d]`), and the subsequent gets hit/miss as the spec lists. -/
theorem lru_concrete_scenario :
    (run String Nat 3 [Op.put "a" (some 1), Op.put "b" (some 2),
      Op.put "c" (some 3)]).size = 3 ∧
    ((run String Nat 3 [Op.put "a" (some 1), Op.put "b" (some 2),
      Op.put "c" (some 3)]).get "a").1 = some 1 ∧
    run String Nat 3 [Op.put "a" (some 1), Op.put "b" (some 2),
      Op.put "c" (some 3), Op.get "a", Op.put "d" (some 4)] =
      ⟨3, [("c", some 3), ("a", some 1), ("d", some 4)]⟩ ∧
    (run String Nat 3 [Op.put "a" (some 1), Op.put "b" (some 2),
      Op.put "c" (some 3), Op.get "a", Op.put "d" (some 4)]).containsKey "b"
      = false ∧
    ((run String Nat 3 [Op.put "a" (some 1), Op.put "b" (some 2),
      Op.put "c" (some 3), Op.get "a", Op.put "d" (some 4)]).get "b").1 =
      Option.none ∧
    ((run String Nat 3 [Op.put "a" (some 1), Op.put "b" (some 2),
      Op.put "c" (some 3), Op.get "a", Op.put "d" (some 4),
      Op.get "b"]).get "a").1 = some 1 ∧
    ((run String Nat 3 [Op.put "a" (some 1), Op.put "b" (some 2),
      Op.put "c" (some 3), Op.get "a", Op.put "d" (some 4), Op.get "b",
      Op.get "a"]).get "c").1 = some 3 ∧
    ((run String Nat 3 [Op.put "a" (some 1), Op.put "b" (some 2),
      Op.put "c" (some 3), Op.get "a", Op.put "d" (some 4), Op.get "b",
      Op.get "a", Op.get "c"]).get "d").1 = some 4 := by
  decide

/-- Claim C7: `put` on a present key overwrites the value, gives the key
the same move-to-newest recency treatment as a `get` hit, keeps `size()`
and the capacity unchanged, and evicts nothing — every other key keeps its
value, and the set of present keys is untouched. -/
theorem lru_put_existing_updates (c : LRUCache K V) (k : K) (v : Option V)
    (hnd : (c.cache.map Prod.fst).Nodup) (hk : c.containsKey k = true) :
    (c.put k v).size = c.size ∧
    odLookup (c.put k v).cache k = Option.some v ∧
    (c.put k v).cache.map Prod.fst = ((c.get k).2).cache.map Prod.fst ∧
    (∀ k', k' ≠ k → odLookup (c.put k v).cache k' = odLookup c.cache k') ∧
    (∀ k', (c.put k v).containsKey k' = c.containsKey k') ∧
    (c.put k v).capacity = c.capacity := by
  obtain ⟨v₀, hv₀⟩ := lookup_of_odContains _ _ hk
  have hput := put_present_cache c k v hk
  have hget := get_hit c k v₀ hv₀
  refine ⟨?_, ?_, ?_, ?_, ?_, ?_⟩
  · rw [hput]
    show (odRemove c.cache k ++ [(k, v)]).length = c.cache.length
    rw [List.length_append]
    have := length_odRemove_of_nodup c.cache k hnd hk
    simp only [List.length_singleton]
    omega
  · rw [hput]
    exact odLookup_remove_append_self c.cache k v
  · rw [hput, hget]
    show (odRemove c.cache k ++ [(k, v)]).map Prod.fst =
      (odRemove c.cache k ++ [(k, v₀)]).map Prod.fst
    simp
  · intro k' hk'
    rw [hput]
    exact odLookup_remove_append_ne c.cache k k' v hk'
  · intro k'
    by_cases hk' : k' = k
    · rw [hk', hput]
      show odContains (odRemove c.cache k ++ [(k, v)]) k = odContains c.cache k
      rw [odContains_of_lookup _ _ _ (odLookup_remove_append_self c.cache k v)]
      exact hk.symm
    · rw [hput]
      show odContains (odRemove c.cache k ++ [(k, v)]) k' = odContains c.cache k'
      rw [odContains_eq_isSome, odContains_eq_isSome,
        odLookup_remove_append_ne c.cache k k' v hk']
  · rw [hput]

/-- Witness for `lru_put_existing_updates`: overwriting `"a"` in a cache
holding `"a"` and `"b"`. -/
theorem lru_put_existing_updates_witness :
    (((run String Nat 2 [Op.put "a" (some 1),
        Op.put "b" (some 2)]).cache.map Prod.fst).Nodup ∧
      (run String Nat 2 [Op.put "a" (some 1),
        Op.put "b" (some 2)]).containsKey "a" = true) ∧
    ((run String Nat 2 [Op.put "a" (some 1), Op.put "b" (some 2)]).put "a"
        (some 7)).size =
      (run String Nat 2 [Op.put "a" (some 1), Op.put "b" (some 2)]).size ∧
    odLookup ((run String Nat 2 [Op.put "a" (some 1),
        Op.put "b" (some 2)]).put "a" (some 7)).cache "a" = Option.some (some 7) :=
  ⟨⟨by decide, by decide⟩,
    (lru_put_existing_updates (run String Nat 2 [Op.put "a" (some 1),
      Op.put "b" (some 2)]) "a" (some 7) (by decide) (by decide)).1,
    (lru_put_existing_updates (run String Nat 2 [Op.put "a" (some 1),
      Op.put "b" (some 2)]) "a" (some 7) (by decide) (by decide)).2.1⟩

/-- Claim C4: for every capacity at least 1 and every call sequence from a
fresh cache, `0 ≤ size() ≤ capacity` holds (after every call, since the
sequence is universally quantified, covering each prefix), and the cache
holds at most one entry per distinct key. -/
theorem lru_size_invariant (cap : Int) (ops : List (Op K V))
    (hcap : 1 ≤ cap) :
    (0 : Int) ≤ ((run K V cap ops).size : Int) ∧
    ((run K V cap ops).size : Int) ≤ cap ∧
    ((run K V cap ops).cache.map Prod.fst).Nodup := by
  obtain ⟨-, -, -, -, hnd, hlen⟩ := inv_run cap hcap ops
  exact ⟨Int.natCast_nonneg _, hlen, hnd⟩

/-- Witness for `lru_size_invariant`: capacity 2 with puts beyond capacity,
a get, and a clear. -/
theorem lru_size_invariant_witness :
    (1 : Int) ≤ 2 ∧
    ((0 : Int) ≤ ((run String Nat 2 [Op.put "a" (some 1), Op.get "a",
        Op.put "b" (some 2), Op.put "c" (some 3)]).size : Int) ∧
      ((run String Nat 2 [Op.put "a" (some 1), Op.get "a",
        Op.put "b" (some 2), Op.put "c" (some 3)]).size : Int) ≤ 2 ∧
      ((run String Nat 2 [Op.put "a" (some 1), Op.get "a",
        Op.put "b" (some 2), Op.put "c" (some 3)]).cache.map Prod.fst).Nodup) :=
  ⟨by decide,
    lru_size_invariant 2 [Op.put "a" (some 1), Op.get "a",
      Op.put "b" (some 2), Op.put "c" (some 3)] (by decide)⟩

/-- On any cache state, `get` never reaches a fallible dict primitive: its
`move_to_end` sits behind the presence guard. -/
theorem getE_eq_ok (c : LRUCache K V) (k : K) :
    c.getE k = Except.ok (c.get k) := by
  by_cases hc : odContains c.cache k = true
  · obtain ⟨v₀, hv₀⟩ := lookup_of_odContains _ _ hc
    have hmv : odMoveToEndE c.cache k =
        Except.ok (odRemove c.cache k ++ [(k, v₀)]) := by
      simp [odMoveToEndE, hv₀]
    rw [get_hit c k v₀ hv₀]
    simp [LRUCache.getE, hc, hmv, odLookup_remove_append_self]
  · have hc' : odContains c.cache k = false := by simpa using hc
    have hl := lookup_none_of_odContains_false c.cache k hc'
    rw [get_miss c k hl]
    simp [LRUCache.getE, hc']

/-- On a cache whose capacity is at least 1 (i.e. any constructed cache),
`put` never reaches a fallible dict primitive: `move_to_end` sits behind
the presence guard, and `popitem` only runs when the dict holds at least
`capacity ≥ 1` entries. -/
theorem putE_eq_ok (c : LRUCache K V) (k : K) (v : Option V)
    (hcap : 1 ≤ c.capacity) :
    c.putE k v = Except.ok (c.put k v) := by
  by_cases hc : odContains c.cache k = true
  · obtain ⟨v₀, hv₀⟩ := lookup_of_odContains _ _ hc
    have hmv : odMoveToEndE c.cache k =
        Except.ok (odRemove c.cache k ++ [(k, v₀)]) := by
      simp [odMoveToEndE, hv₀]
    have hmt : odMoveToEnd c.cache k = odRemove c.cache k ++ [(k, v₀)] := by
      simp [odMoveToEnd, hv₀]
    simp [LRUCache.putE, LRUCache.put, hc, hmv, hmt]
  · have hc' : odContains c.cache k = false := by simpa using hc
    by_cases hfull : (c.cache.length : Int) ≥ c.capacity
    · cases hce : c.cache with
      | nil =>
          exfalso
          rw [hce] at hfull
          simp at hfull
          omega
      | cons p t =>
          have hpop : odPopFirstE c.cache = Except.ok t := by
            rw [hce]; rfl
          have htail : c.cache.tail = t := by rw [hce]; rfl
          simp [LRUCache.putE, LRUCache.put, hc', hfull, hpop, htail]
    · simp [LRUCache.putE, LRUCache.put, hc', hfull]

/-- Claim C6: construction fails (with the `ValueError`) exactly when
`capacity < 1`, in which case no cache is produced; a valid capacity yields
an empty cache; and on a constructed cache no later operation ever reaches
a raising code path — `get` on a missing key, `clear`, `contains`, and
`put` at full capacity all return normally after any call sequence. -/
theorem lru_only_invalid_capacity_raises (cap : Int) (ops : List (Op K V))
    (op : Op K V) :
    ((∃ c₀, LRUCache.init K V cap = Except.ok c₀) ↔ 1 ≤ cap) ∧
    (∀ c₀, LRUCache.init K V cap = Except.ok c₀ →
      c₀.size = 0 ∧ c₀.capacity = cap) ∧
    (1 ≤ cap → ∃ c', stepE (run K V cap ops) op = Except.ok c') := by
  refine ⟨⟨?_, ?_⟩, ?_, ?_⟩
  · rintro ⟨c₀, hc₀⟩
    by_cases h : cap < 1
    · simp [LRUCache.init, h] at hc₀
    · omega
  · intro h
    have h' : ¬ cap < 1 := by omega
    exact ⟨⟨cap, []⟩, by simp [LRUCache.init, h']⟩
  · intro c₀ h
    by_cases h' : cap < 1
    · simp [LRUCache.init, h'] at h
    · rw [LRUCache.init, if_neg h'] at h
      cases h
      exact ⟨rfl, rfl⟩
  · intro hcap
    have hrc : (run K V cap ops).capacity = cap := run_capacity cap ops
    cases op with
    | put k v =>
        refine ⟨(run K V cap ops).put k v, ?_⟩
        show (run K V cap ops).putE k v = _
        exact putE_eq_ok _ k v (by rw [hrc]; exact hcap)
    | get k =>
        refine ⟨((run K V cap ops).get k).2, ?_⟩
        show stepE (run K V cap ops) (Op.get k) = _
        rw [stepE, getE_eq_ok]
    | clear => exact ⟨(run K V cap ops).clear, rfl⟩
    | contains k => exact ⟨run K V cap ops, rfl⟩

/-- Witness for `lru_only_invalid_capacity_raises`: capacity 1, a full
cache, and a `put` of a fresh key (the eviction path). -/
theorem lru_only_invalid_capacity_raises_witness :
    (1 : Int) ≤ 1 ∧
    (∃ c', stepE (run String Nat 1 [Op.put "a" (some 1)])
      (Op.put "b" (some 2)) = Except.ok c') :=
  ⟨by decide,
    (lru_only_invalid_capacity_raises 1 [Op.put "a" (some 1)]
      (Op.put "b" (some 2))).2.2 (by decide)⟩

/-- Claim C1: after any call sequence, if the cache is at capacity and a
fresh key is put, the entry evicted is exactly the least recently used one
in the history sense — the present entry whose step stamp (index of its
last appearance as a `put` key or `get` hit, insertion included, so ties
cannot arise) is strictly below every other present entry's stamp.  That
entry is removed before the new entry is appended at the most-recent end,
every other entry keeps its value, and `size()` stays equal to the
capacity. -/
theorem lru_put_full_evicts_lru (cap : Int) (ops : List (Op K V)) (k : K)
    (v : Option V) (hcap : 1 ≤ cap)
    (hfull : ((run K V cap ops).size : Int) = cap)
    (habs : (run K V cap ops).containsKey k = false) :
    ∃ e : SEntry K V,
      e ∈ (srun K V cap ops).entries ∧
      (∀ e' ∈ (srun K V cap ops).entries, e'.key ≠ e.key → e.last < e'.last) ∧
      ((run K V cap ops).put k v).containsKey e.key = false ∧
      (∀ e' ∈ (srun K V cap ops).entries, e'.key ≠ e.key →
        odLookup ((run K V cap ops).put k v).cache e'.key =
          Option.some e'.val) ∧
      ((run K V cap ops).put k v).cache =
        (run K V cap ops).cache.tail ++ [(k, v)] ∧
      (((run K V cap ops).put k v).size : Int) = cap := by
  obtain ⟨hcapa, hcache, hpw, hclock, hnd, hlen⟩ := inv_run cap hcap ops
  have hlen' : ((run K V cap ops).cache.length : Int) = cap := hfull
  have habs' : odContains (run K V cap ops).cache k = false := habs
  have hkn : k ∉ (run K V cap ops).cache.map Prod.fst :=
    not_mem_keys_of_odContains_false _ k habs'
  have hgeq : ((run K V cap ops).cache.length : Int) ≥
      (run K V cap ops).capacity := by
    rw [hcapa]
    omega
  have hput : (run K V cap ops).put k v =
      ⟨(run K V cap ops).capacity, (run K V cap ops).cache.tail ++ [(k, v)]⟩ := by
    simp [LRUCache.put, habs', hgeq]
  cases hent : (srun K V cap ops).entries with
  | nil =>
      exfalso
      rw [hent] at hcache
      rw [hcache] at hlen'
      simp [eraseStamps_nil] at hlen'
      omega
  | cons e₀ rest =>
      rw [hent] at hcache hpw
      have hcache' : (run K V cap ops).cache =
          (e₀.key, e₀.val) :: eraseStamps rest := hcache
      have hndk : ((e₀.key :: (eraseStamps rest).map Prod.fst)).Nodup := by
        have h0 := hcache' ▸ hnd
        simpa using h0
      have hrestnd : (rest.map SEntry.key).Nodup := by
        rw [← keys_eraseStamps]
        exact (List.nodup_cons.1 hndk).2
      have he₀k : e₀.key ∈ (run K V cap ops).cache.map Prod.fst := by
        rw [hcache']
        exact List.mem_cons_self _ _
      have he₀ne : e₀.key ≠ k := fun he => hkn (he ▸ he₀k)
      have httail : (run K V cap ops).cache.tail = eraseStamps rest := by
        rw [hcache']
        rfl
      refine ⟨e₀, ?_, ?_, ?_, ?_, ?_, ?_⟩
      · exact List.mem_cons_self _ _
      · intro e' he' hne
        rcases List.mem_cons.1 he' with he' | he'
        · exact absurd (he' ▸ rfl) hne
        · exact (List.pairwise_cons.1 hpw).1 e' he'
      · rw [hput]
        show odContains ((run K V cap ops).cache.tail ++ [(k, v)]) e₀.key = false
        rw [httail]
        refine odContains_false_of_not_mem_keys _ _ ?_
        rw [List.map_append]
        intro hmem
        rcases List.mem_append.1 hmem with hmem | hmem
        · exact (List.nodup_cons.1 hndk).1 hmem
        · simp at hmem
          exact he₀ne hmem
      · intro e' he' hne
        have he'r : e' ∈ rest := by
          rcases List.mem_cons.1 he' with h0 | h0
          · exact absurd (h0 ▸ rfl) hne
          · exact h0
        have he'mem : (e'.key, e'.val) ∈ eraseStamps rest := by
          exact List.mem_map_of_mem _ he'r
        have he'keys : e'.key ∈ (run K V cap ops).cache.map Prod.fst := by
          rw [hcache']
          exact List.mem_cons_of_mem _ (List.mem_map_of_mem Prod.fst he'mem)
        have he'ne : e'.key ≠ k := fun he => hkn (he ▸ he'keys)
        have hfound : odLookup (eraseStamps rest) e'.key =
            Option.some e'.val := by
          rw [odLookup_eraseStamps, find?_key_of_mem rest e' hrestnd he'r]
          rfl
        rw [hput]
        show odLookup ((run K V cap ops).cache.tail ++ [(k, v)]) e'.key =
          Option.some e'.val
        rw [httail, odLookup_append, hfound]
      · rw [hput]
      · rw [hput]
        show (((run K V cap ops).cache.tail ++ [(k, v)]).length : Int) = cap
        rw [List.length_append, List.length_tail]
        have hpos : 1 ≤ (run K V cap ops).cache.length := by
          rw [hcache']
          simp
        simp only [List.length_singleton]
        omega

/-- Witness for `lru_put_full_evicts_lru`: capacity 2 filled with `"a"`,
`"b"`, then a put of the fresh key `"c"`. -/
theorem lru_put_full_evicts_lru_witness :
    ((1 : Int) ≤ 2 ∧
      ((run String Nat 2 [Op.put "a" (some 1),
        Op.put "b" (some 2)]).size : Int) = 2 ∧
      (run String Nat 2 [Op.put "a" (some 1),
        Op.put "b" (some 2)]).containsKey "c" = false) ∧
    (∃ e : SEntry String Nat,
      e ∈ (srun String Nat 2 [Op.put "a" (some 1),
        Op.put "b" (some 2)]).entries ∧
      (∀ e' ∈ (srun String Nat 2 [Op.put "a" (some 1),
        Op.put "b" (some 2)]).entries, e'.key ≠ e.key → e.last < e'.last) ∧
      ((run String Nat 2 [Op.put "a" (some 1), Op.put "b" (some 2)]).put "c"
        (some 3)).containsKey e.key = false ∧
      (∀ e' ∈ (srun String Nat 2 [Op.put "a" (some 1),
        Op.put "b" (some 2)]).entries, e'.key ≠ e.key →
        odLookup ((run String Nat 2 [Op.put "a" (some 1),
          Op.put "b" (some 2)]).put "c" (some 3)).cache e'.key =
          Option.some e'.val) ∧
      ((run String Nat 2 [Op.put "a" (some 1), Op.put "b" (some 2)]).put "c"
        (some 3)).cache =
        (run String Nat 2 [Op.put "a" (some 1),
          Op.put "b" (some 2)]).cache.tail ++ [("c", some 3)] ∧
      (((run String Nat 2 [Op.put "a" (some 1), Op.put "b" (some 2)]).put "c"
        (some 3)).size : Int) = 2) :=
  ⟨⟨by decide, by decide, by decide⟩,
    lru_put_full_evicts_lru 2 [Op.put "a" (some 1), Op.put "b" (some 2)]
      "c" (some 3) (by decide) (by decide) (by decide)⟩

end LRU
